import Mathlib

/-!
Verification development for the A.I.T.I.A RCA pipeline.

Shallow embedding of three components and theorems checking the spec:
* `SafetyGuardrail.validate_command` (src/agents/safety_guardrail.py),
* `TemporalKnowledgeGraph` (src/causal/graph.py),
* `AsyncRCAController` (src/agents/controller.py).

Python floats (timestamps, latencies, confidences) are modelled as `ℚ`;
Python lists/deques as Lean lists; Python dicts as insertion-ordered
association lists.
-/

set_option allowUnsafeReducibility true in
attribute [semireducible] Rat.add Rat.sub Rat.mul Rat.inv Rat.ofScientific

namespace AITIA

/-! ### String helpers (Python `str.lower`, `in`, `startswith`) -/

/-- Python `str.lower`, characterwise (commands are ASCII). -/
def lowerStr (s : String) : List Char := s.data.map Char.toLower

/-- `leadsWith needle hay` is Python `hay.startswith(needle)`. -/
def leadsWith : List Char → List Char → Bool
  | [], _ => true
  | _ :: _, [] => false
  | a :: as, b :: bs => a == b && leadsWith as bs

/-- `hasSub needle hay` is Python `needle in hay` (substring test). -/
def hasSub (needle : List Char) : List Char → Bool
  | [] => needle.isEmpty
  | c :: rest => leadsWith needle (c :: rest) || hasSub needle rest

/-- Substring test with a string needle against an already-lowered haystack. -/
def containsSub (hay : List Char) (needle : String) : Bool :=
  hasSub needle.data hay

/-! ### SafetyGuardrail (src/agents/safety_guardrail.py) -/

def SAFE_VERBS : List String := ["scale", "edit", "set", "annotate", "label", "rollout"]

def FORBIDDEN_VERBS : List String := ["delete", "remove", "drop", "restart", "reboot"]

def criticalVerbMsg (verb : String) : String :=
  "⛔ CRITICAL: Detected destructive verb \x27" ++ verb ++ "\x27. Autonomous execution BLOCKED."

def toolWarnMsg : String :=
  "⚠️ WARNING: Command is not a standard Infrastructure-as-Code tool."

def forceCriticalMsg : String :=
  "⛔ CRITICAL: \x27--force\x27 flag detected. Human approval required."

def whitelistWarnMsg : String :=
  "⚠️ WARNING: Action verb not in the \x27Explicitly Safe\x27 whitelist."

/-- Result dict of `validate_command`. -/
structure VResult where
  is_safe : Bool
  security_score : Int
  issues : List String
  simulated_outcome : String
deriving DecidableEq, Repr

/-- Body of the `for verb in self.FORBIDDEN_VERBS` loop: state is
`(score, is_safe, issues)`. -/
def forbiddenStep (cmd : List Char) (acc : Int × Bool × List String) (verb : String) :
    Int × Bool × List String :=
  if containsSub cmd verb then
    (acc.1 - 100, false, acc.2.2 ++ [criticalVerbMsg verb])
  else acc

/-- `SafetyGuardrail.validate_command`, translated statement by statement.
The sequential reassignments of `score` / `is_safe` / `issues` become
numbered lets. -/
def validate_command (command : String) : VResult :=
  let cmd_lower := lowerStr command
  let acc := FORBIDDEN_VERBS.foldl (forbiddenStep cmd_lower) (100, true, [])
  let score1 := acc.1
  let safe1 := acc.2.1
  let issues1 := acc.2.2
  let hasTool := leadsWith "kubectl".data cmd_lower || leadsWith "terraform".data cmd_lower
  let score2 := if !hasTool then score1 - 20 else score1
  let issues2 := if !hasTool then issues1 ++ [toolWarnMsg] else issues1
  let hasForce := containsSub cmd_lower "--force"
  let score3 := if hasForce then score2 - 50 else score2
  let safe3 := if hasForce then false else safe1
  let issues3 := if hasForce then issues2 ++ [forceCriticalMsg] else issues2
  let has_safe_verb := SAFE_VERBS.any fun v => containsSub cmd_lower v
  let score4 := if !has_safe_verb && safe3 then score3 - 30 else score3
  let issues4 := if !has_safe_verb && safe3 then issues3 ++ [whitelistWarnMsg] else issues3
  { is_safe := safe3
    security_score := max 0 score4
    issues := issues4
    simulated_outcome :=
      if safe3 then "Command would update resource specifications."
      else "Command execution HALTED by Safety Policy." }

/-- The forbidden verbs present in a (lowered) command. -/
def presentForbidden (cmd_lower : List Char) : List String :=
  FORBIDDEN_VERBS.filter fun v => containsSub cmd_lower v

/-- The guardrail algorithm as the spec states it (section 4.3, steps 1-6):
score is 100 minus 100 per forbidden verb present, minus 20 without a
recognised tool, minus 50 for a force flag, minus 30 when still safe with
no explicitly-safe verb, clamped at 0; safe iff no forbidden verb and no
force flag; issues accumulated in that order. -/
def spec_validate (command : String) : VResult :=
  let c := lowerStr command
  let forb := presentForbidden c
  let noTool := !(leadsWith "kubectl".data c || leadsWith "terraform".data c)
  let hasForce := containsSub c "--force"
  let safe := forb.isEmpty && !hasForce
  let noSafeVerb := !(SAFE_VERBS.any fun v => containsSub c v)
  let score : Int := 100 - 100 * forb.length - (if noTool then 20 else 0)
      - (if hasForce then 50 else 0) - (if safe && noSafeVerb then 30 else 0)
  { is_safe := safe
    security_score := max 0 score
    issues := forb.map criticalVerbMsg
      ++ (if noTool then [toolWarnMsg] else [])
      ++ (if hasForce then [forceCriticalMsg] else [])
      ++ (if safe && noSafeVerb then [whitelistWarnMsg] else [])
    simulated_outcome :=
      if safe then "Command would update resource specifications."
      else "Command execution HALTED by Safety Policy." }

lemma forbidden_foldl (cmd : List Char) (l : List String) (s : Int) (sf : Bool)
    (iss : List String) :
    l.foldl (forbiddenStep cmd) (s, sf, iss) =
      (s - 100 * (l.filter fun v => containsSub cmd v).length,
       sf && (l.filter fun v => containsSub cmd v).isEmpty,
       iss ++ (l.filter fun v => containsSub cmd v).map criticalVerbMsg) := by
  induction l generalizing s sf iss with
  | nil => simp
  | cons a t ih =>
    rw [List.foldl_cons, List.filter_cons]
    by_cases h : containsSub cmd a = true
    · rw [if_pos h]
      simp only [forbiddenStep, h, if_true]
      rw [ih, Prod.ext_iff, Prod.ext_iff]
      refine ⟨?_, ?_, ?_⟩ <;> dsimp only
      · simp only [List.length_cons]
        push_cast
        ring
      · simp
      · simp
    · rw [if_neg h]
      simp only [forbiddenStep, h, if_false, Bool.false_eq_true]
      exact ih s sf iss

lemma validate_eq_spec (cmd : String) : validate_command cmd = spec_validate cmd := by
  have hf := forbidden_foldl (lowerStr cmd) FORBIDDEN_VERBS 100 true []
  simp only [validate_command, spec_validate, presentForbidden, hf, Bool.true_and,
    List.nil_append, VResult.mk.injEq]
  by_cases hT : (leadsWith "kubectl".data (lowerStr cmd)
      || leadsWith "terraform".data (lowerStr cmd)) = true <;>
  by_cases hF : containsSub (lowerStr cmd) "--force" = true <;>
  by_cases hS : (SAFE_VERBS.any fun v => containsSub (lowerStr cmd) v) = true <;>
  by_cases hE : (FORBIDDEN_VERBS.filter fun v =>
      containsSub (lowerStr cmd) v).isEmpty = true <;>
  first
  | (rw [List.isEmpty_iff.mp hE] at *
     simp only [hT, hF, hS, hE, List.isEmpty_nil, List.length_nil, List.map_nil,
       Bool.not_true, Bool.not_false, Bool.true_and, Bool.false_and, Bool.and_true,
       Bool.and_false, if_true, if_false, Bool.false_eq_true, List.append_nil,
       List.nil_append, Nat.cast_zero, mul_zero]
     refine ⟨by simp, by omega, by simp, by simp⟩)
  | (simp only [Bool.not_eq_true] at hE
     simp only [hT, hF, hS, hE, Bool.not_true, Bool.not_false, Bool.true_and,
       Bool.false_and, Bool.and_true, Bool.and_false, if_true, if_false,
       Bool.false_eq_true, List.append_nil, List.nil_append]
     refine ⟨by simp, by omega, by simp, by simp⟩)

/-- Claim C4: `validate_command` follows the claimed deterministic
case-insensitive substring algorithm (formalised as `spec_validate`), and
the two quoted evaluations hold: a delete command is unsafe with score 0
and a critical issue naming delete; a scale command is safe with score 100
and no issues at all. -/
theorem C4_guardrail_algorithm :
    (∀ cmd : String, validate_command cmd = spec_validate cmd)
    ∧ ((validate_command "kubectl delete pod x").is_safe = false
       ∧ (validate_command "kubectl delete pod x").security_score = 0
       ∧ ∃ m ∈ (validate_command "kubectl delete pod x").issues,
           containsSub m.data "delete" = true ∧ leadsWith "⛔ CRITICAL:".data m.data = true)
    ∧ ((validate_command "kubectl scale deployment x --replicas=3").is_safe = true
       ∧ (validate_command "kubectl scale deployment x --replicas=3").security_score = 100
       ∧ (validate_command "kubectl scale deployment x --replicas=3").issues = []) :=
  ⟨validate_eq_spec, by decide, by decide⟩

/-- State-threading translation of `validate_command`: the Python method
body reads only its argument and the class constants; it contains no
attribute or global writes and no I/O calls, so the threaded program
state passes through unchanged. -/
def validate_commandW {σ : Type _} (state : σ) (command : String) : VResult × σ :=
  (validate_command command, state)

/-- Claim C9: `validate_command` is pure and deterministic - the ambient
state is returned unchanged, the result does not depend on it, and two
invocations on the same command agree. -/
theorem C9_validate_pure :
    ∀ (σ : Type) (s1 s2 : σ) (cmd : String),
      (validate_commandW s1 cmd).2 = s1
      ∧ (validate_commandW s1 cmd).1 = (validate_commandW s2 cmd).1
      ∧ (validate_commandW s1 cmd).1 = validate_command cmd :=
  fun _ _ _ _ => ⟨rfl, rfl, rfl⟩

/-! ### Association-list helpers (Python dicts are insertion-ordered) -/

/-- First-occurrence lookup in an association list. -/
def alookup {α β : Type _} [DecidableEq α] (k : α) : List (α × β) → Option β
  | [] => none
  | (k2, v) :: t => if k2 = k then some v else alookup k t

/-- Update the value stored at an existing key, in place. -/
def aupdate {α β : Type _} [DecidableEq α] (k : α) (f : β → β) :
    List (α × β) → List (α × β)
  | [] => []
  | (k2, v) :: t => if k2 = k then (k2, f v) :: t else (k2, v) :: aupdate k f t

/-- Python dict assignment `d[k] = v`: overwrite in place, else append. -/
def aset {α β : Type _} [DecidableEq α] (k : α) (v : β) (l : List (α × β)) :
    List (α × β) :=
  if (alookup k l).isSome then aupdate k (fun _ => v) l else l ++ [(k, v)]

/-- `deque(maxlen := cap)` append: past capacity the oldest (leftmost)
entries are discarded. -/
def pushRing {α : Type _} (cap : Nat) (l : List α) (a : α) : List α :=
  let l2 := l ++ [a]
  l2.drop (l2.length - cap)

/-! ### TemporalKnowledgeGraph (src/causal/graph.py)

Python floats become `ℚ`. The networkx `DiGraph` becomes an explicit
node list plus an association list from directed edge to its
observation ring (`deque(maxlen=100)`); `self.observations` is the
global chronological index (`deque(maxlen=max_edges)`). -/

/-- The observation dict appended to an edge ring. -/
structure EObs where
  timestamp : ℚ
  latency_ms : ℚ
  cpu_from : Option ℚ
  mem_from : Option ℚ
deriving DecidableEq, Repr

/-- Cached per-service state snapshot. -/
structure SState where
  current_cpu : ℚ
  current_memory : Option ℚ
  last_updated : ℚ
deriving DecidableEq, Repr

/-- Global chronological index entry `(timestamp, u, v)`. -/
abbrev IndexEntry : Type := ℚ × String × String

structure Graph where
  max_edges : Nat
  nodes : List String
  edges : List ((String × String) × List EObs)
  observations : List IndexEntry
  service_states : List (String × SState)
  node_attrs : List (String × SState)
deriving DecidableEq, Repr

/-- `TemporalKnowledgeGraph.__init__` (the ttl field plays no role in the
operations under study). -/
def init_graph (max_edges : Nat) : Graph := ⟨max_edges, [], [], [], [], []⟩

/-- Insert a node if absent (networkx `add_node` / implicit via `add_edge`). -/
def addNode (l : List String) (s : String) : List String :=
  if s ∈ l then l else l ++ [s]

/-- `TemporalKnowledgeGraph.add_observation`, translated statement by
statement (the asyncio lock serialises calls, so one call is one state
update). networkx `add_edge` also inserts missing endpoint nodes. -/
def add_observation (g : Graph) (from_service to_service : String)
    (latency_ms ts : ℚ) (cpu_percent memory_percent : Option ℚ) : Graph :=
  let g1 := if (alookup (from_service, to_service) g.edges).isSome then g
    else { g with
      nodes := addNode (addNode g.nodes from_service) to_service
      edges := g.edges ++ [((from_service, to_service), [])] }
  let newEdges := aupdate (from_service, to_service)
    (fun ring => pushRing 100 ring ⟨ts, latency_ms, cpu_percent, memory_percent⟩) g1.edges
  let g2 := { g1 with edges := newEdges }
  let newIndex := pushRing g2.max_edges g2.observations (ts, from_service, to_service)
  let g3 := { g2 with observations := newIndex }
  let g4 := match cpu_percent with
    | some c =>
      let st : SState := ⟨c, memory_percent, ts⟩
      { g3 with
        service_states := aset from_service st g3.service_states
        nodes := addNode g3.nodes from_service
        node_attrs := aset from_service st g3.node_attrs }
    | none => g3
  { g4 with nodes := addNode g4.nodes to_service }

/-- The loop of Python `bisect_left(obs_list, cutoff, key first-slot)`:
`while lo < hi: mid = (lo+hi)//2; if a[mid] < x: lo = mid+1 else: hi = mid`.
The fuel argument only bounds the iteration count (each iteration shrinks
`hi - lo`, so any fuel at least `hi - lo` gives the loop result). -/
def bisectGo : Nat → List ℚ → ℚ → Nat → Nat → Nat
  | 0, _, _, lo, _ => lo
  | fuel + 1, l, x, lo, hi =>
    if lo < hi then
      let mid := (lo + hi) / 2
      if l.getD mid 0 < x then bisectGo fuel l x (mid + 1) hi
      else bisectGo fuel l x lo mid
    else lo

def bisect_left (l : List ℚ) (x : ℚ) : Nat := bisectGo l.length l x 0 l.length

/-- Linear scan of an edge ring for the observation matching an index
timestamp up to the 0.001 epsilon; first match wins (the `break`). -/
def resolveObs (ring : List EObs) (ts : ℚ) : Option EObs :=
  ring.find? fun o => |o.timestamp - ts| < 1 / 1000

/-- One iteration of the `for ts, u, v in recent_obs` loop updating the
`upstream` dict. -/
def groupStep (g : Graph) (service : String) (upstream : List (String × List EObs))
    (e : IndexEntry) : List (String × List EObs) :=
  if e.2.2 = service then
    let up1 := if (alookup e.2.1 upstream).isSome then upstream
      else upstream ++ [(e.2.1, [])]
    match alookup (e.2.1, e.2.2) g.edges with
    | some ring =>
      match resolveObs ring e.1 with
      | some o => aupdate e.2.1 (fun lst => lst ++ [o]) up1
      | none => up1
    | none => up1
  else upstream

/-- `TemporalKnowledgeGraph.get_causal_neighbors`. The Python default
`current_time = None -> time.time()` becomes an explicit argument. -/
def get_causal_neighbors (g : Graph) (service : String)
    (time_window_seconds current_time : ℚ) : List (String × List EObs) :=
  let cutoff := current_time - time_window_seconds
  let obs_list := g.observations
  if obs_list.isEmpty then []
  else
    let idx := bisect_left (obs_list.map fun e => e.1) cutoff
    let recent_obs := obs_list.drop idx
    recent_obs.foldl (groupStep g service) []

/-- `TemporalKnowledgeGraph.prune_old_edges`; `time.time()` becomes the
explicit `now`. Each edge keeps the observations strictly newer than the
cutoff (refiltering into a fresh `deque(maxlen=100)` cannot grow it), and
edges left empty are removed; nodes, the global index and the service
states are untouched. -/
def prune_old_edges (g : Graph) (now max_age_seconds : ℚ) : Graph :=
  let cutoff := now - max_age_seconds
  let keptEdges := g.edges.filterMap fun e =>
    let new_obs := e.2.filter fun o => cutoff < o.timestamp
    if new_obs.isEmpty then none else some (e.1, new_obs)
  { g with edges := keptEdges }

/-- State-threading translation of `get_causal_neighbors`: the body only
reads (copies the deque to a list, binary-searches it, reads edge rings);
no statement assigns to any field, so the graph passes through unchanged. -/
def get_causal_neighborsS (g : Graph) (service : String)
    (time_window_seconds current_time : ℚ) : List (String × List EObs) × Graph :=
  (get_causal_neighbors g service time_window_seconds current_time, g)

/-- The mutating operations of the graph, for reasoning about arbitrary
operation sequences. -/
inductive GOp
  | add (from_service to_service : String) (latency_ms ts : ℚ)
        (cpu_percent memory_percent : Option ℚ)
  | prune (now max_age_seconds : ℚ)
deriving DecidableEq, Repr

def applyOp (g : Graph) : GOp → Graph
  | .add f t lat ts c m => add_observation g f t lat ts c m
  | .prune now ma => prune_old_edges g now ma

/-- Run a sequence of operations on a freshly constructed graph
(default `max_edges = 5000`). -/
def runOps (ops : List GOp) : Graph := ops.foldl applyOp (init_graph 5000)

/-- Does an operation mention a service as source or target? -/
def touches (s : String) : GOp → Bool
  | .add f t _ _ _ _ => s = f || s = t
  | .prune _ _ => false

/-- Claim C10: `get_causal_neighbors` is a read-only query - the edges and
their rings, the chronological index, the cached service states (and the
node set) are exactly as before the call. -/
theorem C10_neighbors_readonly :
    ∀ (g : Graph) (svc : String) (w t : ℚ),
      (get_causal_neighborsS g svc w t).2 = g
      ∧ (get_causal_neighborsS g svc w t).2.edges = g.edges
      ∧ (get_causal_neighborsS g svc w t).2.observations = g.observations
      ∧ (get_causal_neighborsS g svc w t).2.service_states = g.service_states
      ∧ (get_causal_neighborsS g svc w t).2.nodes = g.nodes
      ∧ (get_causal_neighborsS g svc w t).1 = get_causal_neighbors g svc w t :=
  fun _ _ _ _ => ⟨rfl, rfl, rfl, rfl, rfl, rfl⟩

/-- Counterexample to claim C1: with a single observation at timestamp 200,
querying at `now = 100` with window 50 returns that observation although
its timestamp exceeds `now` - the code bounds the window from below only,
so the returned timestamp 200 lies outside `[now - w, now] = [50, 100]`. -/
theorem C1_counterexample :
    get_causal_neighbors
        (add_observation (init_graph 5000) "a" "b" 1 200 none none) "b" 50 100
      = [("a", [⟨200, 1, none, none⟩])]
    ∧ ¬ ((200 : ℚ) ≤ 100) := by
  refine ⟨by decide, by norm_num⟩

/-- Counterexample to claim C6: after adding one observation on the edge
a -> b and pruning everything away, no edge (hence no retained edge
observation) remains, yet the node a is still in the graph - networkx
`remove_edges_from` never removes nodes. -/
theorem C6_counterexample :
    ¬ (("a" ∈ (runOps [.add "a" "b" 1 0 none none, .prune 200 100]).nodes) ↔
        ∃ p ∈ (runOps [.add "a" "b" 1 0 none none, .prune 200 100]).edges,
          p.1.1 = "a" ∨ p.1.2 = "a") := by
  decide

/-- Counterexample to claim C7: prune at `now = 200`, `max_age = 100` gives
cutoff 100; the single observation has timestamp exactly 100, which is not
older than the cutoff, yet the edge is removed (the code keeps only
timestamps strictly greater than the cutoff). -/
theorem C7_counterexample :
    ¬ ((alookup ("a", "b")
          (prune_old_edges (add_observation (init_graph 5000) "a" "b" 1 100 none none)
            200 100).edges = none) ↔
        ∀ o ∈ (alookup ("a", "b")
            (add_observation (init_graph 5000) "a" "b" 1 100 none none).edges).getD [],
          o.timestamp < 200 - 100) := by
  decide

/-! ### AsyncRCAController (src/agents/controller.py)

The two asyncio queues become lists with explicit capacities; the stats
dict becomes three counters. Each stage loop is embedded as its
single-cycle body, a function of the controller state and of the
outcomes of the external calls the cycle makes (`Except PyExc` results
for calls that may raise). -/

structure LogEntry where
  timestamp : String
  service : String
  level : String
  latency : ℚ
  message : String
  metadata : List (String × String)
deriving DecidableEq, Repr

structure Diagnosis where
  confidence_score : ℚ
  recommended_action : String
  affected_service : String
  root_cause : String
deriving DecidableEq, Repr

/-- The dict pushed onto the action queue by the analysis stage. -/
structure ActionDict where
  type : String
  action : String
  target : String
  reason : String
deriving DecidableEq, Repr

/-- An entry of `remediation_history`. -/
structure Remediation where
  timestamp : String
  action : String
  target : String
  reason : String
deriving DecidableEq, Repr

structure CtrlState where
  max_queue_size : Nat
  raw_queue : List LogEntry
  action_queue : List ActionDict
  stats_processed : Nat
  stats_errors : Nat
  stats_remediations : Nat
  remediation_history : List Remediation
deriving DecidableEq, Repr

/-- `AsyncRCAController.__init__` (default `max_queue_size = 100`, action
queue capacity 50). -/
def init_controller (max_queue_size : Nat) : CtrlState :=
  ⟨max_queue_size, [], [], 0, 0, 0, []⟩

/-- Bounded enqueue on an asyncio queue with `maxsize > 0`: `some` is a
completed enqueue; `none` means the queue is at capacity, which surfaces
as the `QueueFull` exception for `put_nowait` and as suspension of the
calling coroutine for the awaiting `put`. -/
def bounded_enqueue {α : Type _} (maxsize : Nat) (q : List α) (a : α) :
    Option (List α) :=
  if q.length < maxsize then some (q ++ [a]) else none

/-- `AsyncRCAController.submit_log`: `put_nowait` in a try block; on
`QueueFull` it logs a warning and drops the event. It never blocks and
never raises to the caller. -/
def submit_log (st : CtrlState) (e : LogEntry) : CtrlState :=
  match bounded_enqueue st.max_queue_size st.raw_queue e with
  | some q => { st with raw_queue := q }
  | none => st

/-- A Python exception reaching a stage loop: `asyncio.TimeoutError` from
the queue pop with timeout, or any other exception from the unit of work. -/
inductive PyExc
  | timeout
  | exc (msg : String)
deriving DecidableEq, Repr

/-- One `_ingestion_loop` cycle. `pop` is the outcome of
`wait_for(raw_queue.get(), timeout=1.0)` and `ins` the outcome of the
ChromaDB insert inside `_sync_ingest`. The outer try catches
`TimeoutError` (continue) and every other exception (log and continue);
`_sync_ingest` additionally catches the insert failure itself, so
`processed` grows only on success and no exception ever escapes. -/
def ingestion_cycle (st : CtrlState) (pop : Except PyExc LogEntry)
    (ins : Except PyExc Unit) : Except PyExc CtrlState :=
  match pop with
  | .error _ => .ok st
  | .ok _ =>
    match ins with
    | .ok _ =>
      .ok { st with
        raw_queue := st.raw_queue.tail
        stats_processed := st.stats_processed + 1 }
    | .error _ => .ok { st with raw_queue := st.raw_queue.tail }

def mkActionReq (d : Diagnosis) : ActionDict :=
  ⟨"remediate", d.recommended_action, d.affected_service, d.root_cause⟩

/-- Tail of one `_analysis_loop` cycle once a diagnosis is in hand:
`if diagnosis[confidence_score] > 0.8: await self.action_queue.put(...)`.
`some q` is the completed cycle with new action queue `q`; `none` means
the awaiting put suspended on a full queue (capacity 50). -/
def analysis_enqueue (q : List ActionDict) (d : Diagnosis) :
    Option (List ActionDict) :=
  if 0.8 < d.confidence_score then bounded_enqueue 50 q (mkActionReq d) else some q

/-- One `_analysis_loop` cycle. `recent` is the outcome of
`memory.get_recent_errors(5)` (only its row count matters to the code),
`ctx` the outcome of `_build_context` (similar-incident query and causal
model rebuild), `diag` the outcome of `diagnostician.diagnose`. The loop
body has no try/except, so any raised exception leaves the loop:
`.error e`. In the success case the inner option is `analysis_enqueue`
(`.ok none` = suspended on the full action queue). -/
def analysis_cycle (st : CtrlState) (recent : Except PyExc Nat)
    (ctx : Except PyExc Unit) (diag : Except PyExc Diagnosis) :
    Except PyExc (Option CtrlState) :=
  match recent with
  | .error e => .error e
  | .ok n =>
    if 3 < n then
      match ctx with
      | .error e => .error e
      | .ok _ =>
        match diag with
        | .error e => .error e
        | .ok d =>
          match analysis_enqueue st.action_queue d with
          | some q => .ok (some { st with action_queue := q })
          | none => .ok none
    else .ok (some st)

/-- `self.remediation_history.append(...)` followed by
`if len(...) > 20: pop(0)`. -/
def push_history (h : List Remediation) (r : Remediation) : List Remediation :=
  let h2 := h ++ [r]
  if 20 < h2.length then h2.tail else h2

/-- The body run on a popped action in `_action_loop`; `now_iso` stands
for `datetime.now().isoformat()`. Only actions of type remediate bump the
counter and enter the history. -/
def action_apply (st : CtrlState) (p : ActionDict × String) : CtrlState :=
  if p.1.type = "remediate" then
    { st with
      stats_remediations := st.stats_remediations + 1
      remediation_history := push_history st.remediation_history
        ⟨p.2, p.1.action, p.1.target, p.1.reason⟩ }
  else st

/-- One `_action_loop` cycle. Only `asyncio.TimeoutError` is caught
(continue); any other exception from the pop escapes the loop. -/
def action_cycle (st : CtrlState) (pop : Except PyExc ActionDict)
    (now_iso : String) : Except PyExc CtrlState :=
  match pop with
  | .error .timeout => .ok st
  | .error (.exc m) => .error (.exc m)
  | .ok a => .ok (action_apply { st with action_queue := st.action_queue.tail } (a, now_iso))

/-- Claim C5: `submit_log` never blocks (it is a total state update):
below capacity 100 the event is appended to the raw queue; at capacity
the state - queue contents and `stats.processed` included - is returned
unchanged. -/
theorem C5_submit_nonblocking (st : CtrlState) (e : LogEntry)
    (hcap : st.max_queue_size = 100) :
    (st.raw_queue.length < 100 →
      (submit_log st e).raw_queue = st.raw_queue ++ [e]
      ∧ (submit_log st e).stats_processed = st.stats_processed)
    ∧ (100 ≤ st.raw_queue.length → submit_log st e = st) := by
  unfold submit_log bounded_enqueue
  rw [hcap]
  constructor
  · intro h
    rw [if_pos h]
    exact ⟨rfl, rfl⟩
  · intro h
    rw [if_neg (by omega)]

def e0 : LogEntry := ⟨"t0", "svc-a", "ERROR", 250, "connection timeout", []⟩

def ctrl_full : CtrlState :=
  { init_controller 100 with raw_queue := List.replicate 100 e0 }

theorem C5_submit_witness :
    submit_log ctrl_full e0 = ctrl_full
    ∧ (submit_log (init_controller 100) e0).raw_queue = [e0] := by
  constructor
  · exact (C5_submit_nonblocking ctrl_full e0 rfl).2 (by simp [ctrl_full])
  · simpa using ((C5_submit_nonblocking (init_controller 100) e0 rfl).1 (by simp [init_controller])).1

def d09 : Diagnosis := ⟨9/10, "kubectl scale deployment x", "svc-a", "db lock"⟩

/-- Counterexample to claim C2: with the action queue at its capacity of
50 and a diagnosis of confidence 0.9, the analysis enqueue does not
complete with the queue unchanged (the dropping the claim describes);
the awaiting `put` suspends the analysis stage (`none`). -/
theorem C2_counterexample :
    analysis_enqueue (List.replicate 50 (mkActionReq d09)) d09 = none
    ∧ analysis_enqueue (List.replicate 50 (mkActionReq d09)) d09
        ≠ some (List.replicate 50 (mkActionReq d09)) := by
  exact ⟨by decide, by decide⟩

/-- Claim C2 amended: when the diagnosis confidence exceeds 0.8, the
request is enqueued if the action queue is below its capacity of 50,
and when the queue is full the blocking put suspends the analysis stage
until space frees (no request is dropped); at confidence at most 0.8
nothing is enqueued. -/
theorem C2_amended_analysis_put (q : List ActionDict) (d : Diagnosis) :
    (0.8 < d.confidence_score →
      (q.length < 50 → analysis_enqueue q d = some (q ++ [mkActionReq d]))
      ∧ (50 ≤ q.length → analysis_enqueue q d = none))
    ∧ (d.confidence_score ≤ 0.8 → analysis_enqueue q d = some q) := by
  unfold analysis_enqueue bounded_enqueue
  refine ⟨fun hc => ⟨fun hl => ?_, fun hl => ?_⟩, fun hc => ?_⟩
  · rw [if_pos hc, if_pos hl]
  · rw [if_pos hc, if_neg (by omega)]
  · rw [if_neg (not_lt.mpr hc)]

theorem C2_amended_witness :
    analysis_enqueue [] d09 = some [mkActionReq d09]
    ∧ analysis_enqueue (List.replicate 50 (mkActionReq d09)) d09 = none := by
  constructor
  · exact ((C2_amended_analysis_put [] d09).1 (by decide)).1 (by decide)
  · exact ((C2_amended_analysis_put (List.replicate 50 (mkActionReq d09)) d09).1
      (by decide)).2 (by simp)

/-- Counterexample to claim C3: an exception from the memory query inside
the analysis loop, and a non-timeout exception inside the action loop,
both escape their stage loop bodies uncaught. -/
theorem C3_counterexample :
    analysis_cycle (init_controller 100) (.error (.exc "chroma query failed"))
        (.ok ()) (.ok d09)
      = .error (.exc "chroma query failed")
    ∧ action_cycle (init_controller 100) (.error (.exc "malformed action")) "t0"
      = .error (.exc "malformed action") :=
  ⟨rfl, rfl⟩

/-- Claim C3 amended: only the ingestion stage catches every exception of
its per-cycle unit of work; the analysis stage propagates failures of the
memory query, of context/model building and of the diagnosis call; the
action stage catches only the pop timeout and propagates any other
exception. -/
theorem C3_amended_stage_exceptions :
    (∀ (st : CtrlState) (pop : Except PyExc LogEntry) (ins : Except PyExc Unit),
      ∃ st2, ingestion_cycle st pop ins = .ok st2)
    ∧ (∀ (st : CtrlState) (e : PyExc) (c : Except PyExc Unit)
        (d : Except PyExc Diagnosis),
      analysis_cycle st (.error e) c d = .error e)
    ∧ (∀ (st : CtrlState) (n : Nat) (e : PyExc) (d : Except PyExc Diagnosis),
      3 < n → analysis_cycle st (.ok n) (.error e) d = .error e)
    ∧ (∀ (st : CtrlState) (n : Nat) (e : PyExc),
      3 < n → analysis_cycle st (.ok n) (.ok ()) (.error e) = .error e)
    ∧ (∀ (st : CtrlState) (now : String),
      action_cycle st (.error .timeout) now = .ok st)
    ∧ (∀ (st : CtrlState) (m : String) (now : String),
      action_cycle st (.error (.exc m)) now = .error (.exc m)) := by
  refine ⟨?_, ?_, ?_, ?_, ?_, ?_⟩
  · intro st pop ins
    cases pop with
    | error e => exact ⟨st, rfl⟩
    | ok l =>
      cases ins with
      | ok u => exact ⟨_, rfl⟩
      | error e => exact ⟨_, rfl⟩
  · intro st e c d
    rfl
  · intro st n e d hn
    simp only [analysis_cycle, if_pos hn]
  · intro st n e hn
    simp only [analysis_cycle, if_pos hn]
  · intro st now
    rfl
  · intro st m now
    rfl

theorem C3_amended_witness :
    analysis_cycle (init_controller 100) (.ok 4) (.error (.exc "model fit failed"))
        (.ok d09)
      = .error (.exc "model fit failed")
    ∧ analysis_cycle (init_controller 100) (.ok 4) (.ok ())
        (.error (.exc "diagnose failed"))
      = .error (.exc "diagnose failed") :=
  ⟨C3_amended_stage_exceptions.2.2.1 (init_controller 100) 4
      (.exc "model fit failed") (.ok d09) (by decide),
   C3_amended_stage_exceptions.2.2.2.1 (init_controller 100) 4
      (.exc "diagnose failed") (by decide)⟩

lemma push_history_length (h : List Remediation) (r : Remediation)
    (hlen : h.length ≤ 20) : (push_history h r).length ≤ 20 := by
  unfold push_history
  by_cases h2 : 20 < (h ++ [r]).length
  · rw [if_pos h2]
    simp only [List.length_tail, List.length_append, List.length_singleton]
    omega
  · rw [if_neg h2]
    simp only [List.length_append, List.length_singleton] at h2 ⊢
    omega

lemma push_history_foldl (rs : List Remediation) :
    List.foldl push_history [] rs = rs.drop (rs.length - 20) := by
  induction rs using List.reverseRecOn with
  | nil => rfl
  | append_singleton t r ih =>
    rw [List.foldl_append, List.foldl_cons, List.foldl_nil, ih]
    by_cases hl : t.length ≤ 19
    · rw [show t.length - 20 = 0 by omega, List.drop_zero]
      unfold push_history
      rw [if_neg (by simp; omega)]
      rw [show (t ++ [r]).length - 20 = 0 by simp; omega, List.drop_zero]
    · have h20 : 20 ≤ t.length := by omega
      have hdl : (t.drop (t.length - 20)).length = 20 := by
        simp only [List.length_drop]; omega
      unfold push_history
      rw [if_pos (by simp [hdl])]
      have hne : t.drop (t.length - 20) ≠ [] := by
        intro hcontra
        rw [hcontra] at hdl
        simp at hdl
      rw [List.tail_append_singleton_of_ne_nil hne, List.tail_drop]
      rw [List.drop_append_of_le_length
        (by simp only [List.length_append, List.length_singleton]; omega)]
      congr 2
      simp only [List.length_append, List.length_singleton]
      omega

lemma action_apply_history_le (st : CtrlState) (p : ActionDict × String)
    (hlen : st.remediation_history.length ≤ 20) :
    (action_apply st p).remediation_history.length ≤ 20 := by
  unfold action_apply
  by_cases h : p.1.type = "remediate"
  · rw [if_pos h]
    exact push_history_length _ _ hlen
  · rw [if_neg h]
    exact hlen

lemma action_fold_history (ps : List (ActionDict × String)) :
    ∀ st : CtrlState, (∀ p ∈ ps, p.1.type = "remediate") →
    (List.foldl action_apply st ps).remediation_history =
      List.foldl push_history st.remediation_history
        (ps.map fun p => (⟨p.2, p.1.action, p.1.target, p.1.reason⟩ : Remediation)) := by
  induction ps with
  | nil => intro st _; rfl
  | cons p t ih =>
    intro st hall
    rw [List.foldl_cons, List.map_cons, List.foldl_cons,
      ih _ (fun q hq => hall q (List.mem_cons_of_mem p hq))]
    have hp : p.1.type = "remediate" := hall p (List.mem_cons_self p t)
    unfold action_apply
    rw [if_pos hp]

/-- Claim C8: the remediation history never exceeds 20 entries over any
sequence of action-stage cycles, and eviction is FIFO: folding 25
remediate actions from a fresh controller leaves exactly the records of
the last 20, i.e. the 5 oldest have been evicted in insertion order. -/
theorem C8_history_fifo :
    (∀ (ps : List (ActionDict × String)) (st : CtrlState),
      st.remediation_history.length ≤ 20 →
      ((List.foldl action_apply st ps).remediation_history).length ≤ 20)
    ∧ (∀ ps : List (ActionDict × String),
      (∀ p ∈ ps, p.1.type = "remediate") → ps.length = 25 →
      (List.foldl action_apply (init_controller 100) ps).remediation_history =
        (ps.map fun p => (⟨p.2, p.1.action, p.1.target, p.1.reason⟩ : Remediation)).drop 5) := by
  constructor
  · intro ps
    induction ps with
    | nil => intro st h; exact h
    | cons p t ih =>
      intro st h
      rw [List.foldl_cons]
      exact ih _ (action_apply_history_le st p h)
  · intro ps hall hlen
    rw [action_fold_history ps _ hall]
    show List.foldl push_history [] _ = _
    rw [push_history_foldl]
    congr 1
    simp [hlen]

def a_rem : ActionDict := ⟨"remediate", "kubectl scale deployment x", "svc-a", "db lock"⟩

theorem C8_history_witness :
    (List.foldl action_apply (init_controller 100)
        (List.replicate 25 (a_rem, "t0"))).remediation_history =
      ((List.replicate 25 (a_rem, "t0")).map fun p =>
        (⟨p.2, p.1.action, p.1.target, p.1.reason⟩ : Remediation)).drop 5 :=
  C8_history_fifo.2 (List.replicate 25 (a_rem, "t0"))
    (fun p hp => by rw [List.eq_of_mem_replicate hp]; rfl) (by simp)

/-! ### Association-list lemmas -/

lemma mem_addNode (l : List String) (t s : String) :
    s ∈ addNode l t ↔ s ∈ l ∨ s = t := by
  unfold addNode
  by_cases h : t ∈ l
  · rw [if_pos h]
    constructor
    · exact Or.inl
    · rintro (hs | rfl)
      exacts [hs, h]
  · rw [if_neg h]
    simp

lemma mem_addNode_of_mem {l : List String} {s : String} (t : String) (h : s ∈ l) :
    s ∈ addNode l t :=
  (mem_addNode l t s).mpr (Or.inl h)

lemma alookup_isSome_mem {α β : Type _} [DecidableEq α] {k : α} :
    ∀ {l : List (α × β)}, (alookup k l).isSome = true → k ∈ l.map Prod.fst
  | [], h => by simp [alookup] at h
  | (k2, v) :: t, h => by
    by_cases hk : k2 = k
    · subst hk
      simp
    · simp only [alookup, if_neg hk] at h
      simpa using Or.inr (alookup_isSome_mem h)

lemma alookup_eq_none_of_not_mem {α β : Type _} [DecidableEq α] {k : α} :
    ∀ {l : List (α × β)}, k ∉ l.map Prod.fst → alookup k l = none
  | [], _ => rfl
  | (k2, v) :: t, h => by
    simp only [List.map_cons, List.mem_cons] at h
    push_neg at h
    have hne : ¬ k2 = k := fun hc => h.1 hc.symm
    simp only [alookup]
    rw [if_neg hne]
    exact alookup_eq_none_of_not_mem h.2

lemma aupdate_keys {α β : Type _} [DecidableEq α] (k : α) (f : β → β) :
    ∀ l : List (α × β), (aupdate k f l).map Prod.fst = l.map Prod.fst
  | [] => rfl
  | (k2, v) :: t => by
    by_cases hk : k2 = k
    · simp [aupdate, hk]
    · simp [aupdate, hk, aupdate_keys k f t]

/-! ### Claim C6: nodes are never removed -/

/-- Every edge key of the graph has both endpoints among the nodes
(maintained by `add_observation`, trivially preserved by pruning). -/
def edgeKeyHasNodes (g : Graph) : Prop :=
  ∀ k ∈ g.edges.map Prod.fst, k.1 ∈ g.nodes ∧ k.2 ∈ g.nodes

lemma add_observation_nodes (g : Graph) (f t : String) (lat ts : ℚ)
    (c m : Option ℚ) (hinv : edgeKeyHasNodes g) :
    (∀ s, s ∈ (add_observation g f t lat ts c m).nodes ↔
      s ∈ g.nodes ∨ s = f ∨ s = t)
    ∧ edgeKeyHasNodes (add_observation g f t lat ts c m) := by
  have hft : (alookup (f, t) g.edges).isSome = true → f ∈ g.nodes ∧ t ∈ g.nodes := by
    intro h
    exact hinv (f, t) (alookup_isSome_mem h)
  simp only [add_observation]
  by_cases hedge : (alookup (f, t) g.edges).isSome = true
  · rw [if_pos hedge]
    obtain ⟨hf, ht⟩ := hft hedge
    cases c with
    | none =>
      constructor
      · intro s
        simp only []
        rw [mem_addNode]
        constructor
        · rintro (hs | rfl)
          exacts [Or.inl hs, Or.inr (Or.inr rfl)]
        · rintro (hs | rfl | rfl)
          exacts [Or.inl hs, Or.inl hf, Or.inr rfl]
      · intro k hk
        simp only [aupdate_keys] at hk
        obtain ⟨h1, h2⟩ := hinv k hk
        exact ⟨mem_addNode_of_mem t h1, mem_addNode_of_mem t h2⟩
    | some cv =>
      constructor
      · intro s
        simp only []
        rw [mem_addNode, mem_addNode]
        constructor
        · rintro ((hs | rfl) | rfl)
          exacts [Or.inl hs, Or.inr (Or.inl rfl), Or.inr (Or.inr rfl)]
        · rintro (hs | rfl | rfl)
          exacts [Or.inl (Or.inl hs), Or.inl (Or.inr rfl), Or.inr rfl]
      · intro k hk
        simp only [aupdate_keys] at hk
        obtain ⟨h1, h2⟩ := hinv k hk
        exact ⟨mem_addNode_of_mem t (mem_addNode_of_mem f h1),
          mem_addNode_of_mem t (mem_addNode_of_mem f h2)⟩
  · rw [if_neg hedge]
    have hmemf : ∀ s, s ∈ addNode (addNode g.nodes f) t ↔ s ∈ g.nodes ∨ s = f ∨ s = t := by
      intro s
      rw [mem_addNode, mem_addNode]
      tauto
    cases c with
    | none =>
      constructor
      · intro s
        simp only []
        rw [mem_addNode, hmemf]
        tauto
      · intro k hk
        simp only [aupdate_keys, List.map_append] at hk
        rcases List.mem_append.mp hk with hk | hk
        · obtain ⟨h1, h2⟩ := hinv k hk
          refine ⟨mem_addNode_of_mem t ?_, mem_addNode_of_mem t ?_⟩ <;>
            exact (hmemf _).mpr (Or.inl (by assumption))
        · simp only [List.map_singleton, List.mem_singleton] at hk
          subst hk
          constructor <;> refine mem_addNode_of_mem t ((hmemf _).mpr ?_)
          · exact Or.inr (Or.inl rfl)
          · exact Or.inr (Or.inr rfl)
    | some cv =>
      constructor
      · intro s
        simp only []
        rw [mem_addNode, mem_addNode, hmemf]
        tauto
      · intro k hk
        simp only [aupdate_keys, List.map_append] at hk
        rcases List.mem_append.mp hk with hk | hk
        · obtain ⟨h1, h2⟩ := hinv k hk
          refine ⟨?_, ?_⟩ <;>
            exact mem_addNode_of_mem t (mem_addNode_of_mem f
              ((hmemf _).mpr (Or.inl (by assumption))))
        · simp only [List.map_singleton, List.mem_singleton] at hk
          subst hk
          refine ⟨?_, ?_⟩ <;>
            refine mem_addNode_of_mem t (mem_addNode_of_mem f ((hmemf _).mpr ?_))
          · exact Or.inr (Or.inl rfl)
          · exact Or.inr (Or.inr rfl)

lemma prune_nodes (g : Graph) (now ma : ℚ) :
    (prune_old_edges g now ma).nodes = g.nodes := rfl

lemma prune_inv (g : Graph) (now ma : ℚ) (hinv : edgeKeyHasNodes g) :
    edgeKeyHasNodes (prune_old_edges g now ma) := by
  intro k hk
  apply hinv
  simp only [prune_old_edges, List.mem_map, List.mem_filterMap] at hk
  obtain ⟨p, ⟨e, he, hpe⟩, hkp⟩ := hk
  by_cases hemp : ((e.2.filter fun o => now - ma < o.timestamp).isEmpty) = true
  · rw [if_pos hemp] at hpe
    cases hpe
  · rw [if_neg hemp] at hpe
    injection hpe with hpe2
    subst hpe2
    exact List.mem_map.mpr ⟨e, he, hkp⟩

/-- Claim C6 amended: a service node exists in the graph iff the service
has ever appeared as source or target of an `add_observation` call;
nodes are never removed - `prune_old_edges` (networkx `remove_edges_from`)
removes edges only, so pruning away all of a node's observations leaves
the node in the graph. -/
theorem C6_amended_nodes (ops : List GOp) :
    edgeKeyHasNodes (runOps ops)
    ∧ ∀ s : String, s ∈ (runOps ops).nodes ↔ ∃ op ∈ ops, touches s op = true := by
  induction ops using List.reverseRecOn with
  | nil =>
    constructor
    · intro k hk
      simp [runOps, init_graph] at hk
    · intro s
      simp [runOps, init_graph]
  | append_singleton t op ih =>
    have hrun : runOps (t ++ [op]) = applyOp (runOps t) op := by
      unfold runOps
      rw [List.foldl_append, List.foldl_cons, List.foldl_nil]
    cases op with
    | add f t2 lat ts c m =>
      have h := add_observation_nodes (runOps t) f t2 lat ts c m ih.1
      constructor
      · rw [hrun]
        exact h.2
      · intro s
        rw [hrun]
        show s ∈ (add_observation (runOps t) f t2 lat ts c m).nodes ↔ _
        rw [h.1 s, ih.2 s]
        simp only [List.mem_append, List.mem_singleton, touches]
        constructor
        · rintro (⟨op, hop, htouch⟩ | hf | ht2)
          · exact ⟨op, Or.inl hop, htouch⟩
          · exact ⟨.add f t2 lat ts c m, Or.inr rfl, by simp [touches, hf]⟩
          · exact ⟨.add f t2 lat ts c m, Or.inr rfl, by simp [touches, ht2]⟩
        · rintro ⟨op, hop | rfl, htouch⟩
          · exact Or.inl ⟨op, hop, htouch⟩
          · simp only [touches, Bool.or_eq_true, decide_eq_true_eq] at htouch
            tauto
    | prune now ma =>
      constructor
      · rw [hrun]
        exact prune_inv _ _ _ ih.1
      · intro s
        rw [hrun]
        show s ∈ (prune_old_edges (runOps t) now ma).nodes ↔ _
        rw [prune_nodes, ih.2 s]
        simp only [List.mem_append, List.mem_singleton]
        constructor
        · rintro ⟨op, hop, htouch⟩
          exact ⟨op, Or.inl hop, htouch⟩
        · rintro ⟨op, hop | rfl, htouch⟩
          · exact ⟨op, hop, htouch⟩
          · simp [touches] at htouch

/-! ### Claim C7: prune keeps exactly the fresh observations -/

/-- The per-edge transformation prune applies to an observation list. -/
def pruneObs (cutoff : ℚ) (obs : List EObs) : Option (List EObs) :=
  let new_obs := obs.filter fun o => cutoff < o.timestamp
  if new_obs.isEmpty then none else some new_obs

/-- Apply an optional value transformation to an association-list entry,
keeping its key. -/
def entryMap {α β : Type _} (f : β → Option β) (e : α × β) : Option (α × β) :=
  (f e.2).map fun v => (e.1, v)

lemma prune_edges_eq (g : Graph) (now ma : ℚ) :
    (prune_old_edges g now ma).edges =
      g.edges.filterMap (entryMap (pruneObs (now - ma))) := by
  simp only [prune_old_edges]
  apply List.filterMap_congr
  intro e _
  unfold entryMap pruneObs
  by_cases hemp : ((e.2.filter fun o => now - ma < o.timestamp).isEmpty) = true
  · simp [hemp]
  · simp [hemp]

lemma keys_filterMap_subset {α β : Type _} [DecidableEq α] (f : β → Option β)
    (l : List (α × β)) (k : α)
    (h : k ∈ (l.filterMap (entryMap f)).map Prod.fst) :
    k ∈ l.map Prod.fst := by
  simp only [List.mem_map, List.mem_filterMap] at h
  obtain ⟨p, ⟨e, he, hpe⟩, hkp⟩ := h
  unfold entryMap at hpe
  cases hfe : f e.2 with
  | none => rw [hfe] at hpe; cases hpe
  | some w =>
    rw [hfe] at hpe
    injection hpe with hpe2
    subst hpe2
    exact List.mem_map.mpr ⟨e, he, hkp⟩

lemma alookup_filterMap_option {α β : Type _} [DecidableEq α] (f : β → Option β)
    (k : α) :
    ∀ l : List (α × β), (l.map Prod.fst).Nodup →
    alookup k (l.filterMap (entryMap f)) = (alookup k l).bind f
  | [], _ => rfl
  | (k2, v) :: t, hnd => by
    have hnd2 : (t.map Prod.fst).Nodup := (List.nodup_cons.mp hnd).2
    have hk2 : k2 ∉ t.map Prod.fst := (List.nodup_cons.mp hnd).1
    cases hfv : f v with
    | none =>
      have hnone : entryMap f (k2, v) = none := by simp [entryMap, hfv]
      rw [List.filterMap_cons_none hnone]
      by_cases hk : k2 = k
      · subst hk
        rw [alookup_eq_none_of_not_mem (fun hc => hk2 (keys_filterMap_subset f t k2 hc))]
        simp [alookup, hfv]
      · rw [alookup_filterMap_option f k t hnd2]
        simp [alookup, hk]
    | some w =>
      have hsome : entryMap f (k2, v) = some (k2, w) := by simp [entryMap, hfv]
      rw [List.filterMap_cons_some hsome]
      by_cases hk : k2 = k
      · subst hk
        simp [alookup, hfv]
      · simp only [alookup, if_neg hk]
        exact alookup_filterMap_option f k t hnd2

/-- Claim C7 amended: for graphs with distinct edge keys (as
`add_observation` maintains), `prune_old_edges(maxAge)` at time `now`
removes an edge iff none of its observations is strictly newer than the
cutoff `now - maxAge` (all have timestamp at most the cutoff; the
boundary timestamp equal to the cutoff is also dropped); a kept edge
retains exactly the observations with timestamp strictly greater than
the cutoff. -/
theorem C7_amended_prune (g : Graph) (now ma : ℚ) (u v : String)
    (hnd : (g.edges.map Prod.fst).Nodup) :
    (alookup (u, v) g.edges = none →
      alookup (u, v) (prune_old_edges g now ma).edges = none)
    ∧ (∀ l, alookup (u, v) g.edges = some l →
      ((alookup (u, v) (prune_old_edges g now ma).edges = none
        ↔ ∀ o ∈ l, o.timestamp ≤ now - ma)
      ∧ ((∃ o ∈ l, now - ma < o.timestamp) →
        alookup (u, v) (prune_old_edges g now ma).edges =
          some (l.filter fun o => now - ma < o.timestamp)))) := by
  rw [prune_edges_eq, alookup_filterMap_option (pruneObs (now - ma)) (u, v) g.edges hnd]
  constructor
  · intro h
    rw [h]
    rfl
  · intro l h
    rw [h]
    simp only [Option.some_bind, pruneObs]
    constructor
    · by_cases hemp : ((l.filter fun o => now - ma < o.timestamp).isEmpty) = true
      · rw [if_pos hemp]
        simp only [eq_self_iff_true, true_iff]
        intro o ho
        by_contra hlt
        push_neg at hlt
        have hmem : o ∈ l.filter fun o2 => now - ma < o2.timestamp :=
          List.mem_filter.mpr ⟨ho, by simpa using hlt⟩
        rw [List.isEmpty_iff.mp hemp] at hmem
        simp at hmem
      · rw [if_neg hemp]
        simp only [Bool.not_eq_true] at hemp
        constructor
        · intro hcontra
          cases hcontra
        · intro hall
          exfalso
          have hnil : l.filter (fun o => now - ma < o.timestamp) = [] := by
            rw [List.filter_eq_nil_iff]
            intro o ho
            simpa using hall o ho
          rw [hnil] at hemp
          simp at hemp
    · intro ⟨o, ho, hlt⟩
      have hne : (l.filter fun o => now - ma < o.timestamp) ≠ [] := by
        intro hc
        have := List.filter_eq_nil_iff.mp hc o ho
        simp_all
      rw [if_neg (by simpa [List.isEmpty_iff] using hne)]

def g_mixed : Graph :=
  add_observation (add_observation (init_graph 5000) "a" "b" 1 5 none none)
    "a" "b" 2 15 none none

theorem C7_amended_witness :
    alookup ("a", "b") (prune_old_edges g_mixed 20 10).edges
      = some [⟨15, 2, none, none⟩] := by
  have h := ((C7_amended_prune g_mixed 20 10 "a" "b" (by decide)).2
    [⟨5, 1, none, none⟩, ⟨15, 2, none, none⟩] (by decide)).2
    ⟨⟨15, 2, none, none⟩, by decide, by decide⟩
  rw [h]
  decide

/-! ### Claim C1: what the windowed neighbor query returns -/

/-- The arguments of one `add_observation` call. -/
structure AddInput where
  from_service : String
  to_service : String
  latency_ms : ℚ
  ts : ℚ
  cpu_percent : Option ℚ
  memory_percent : Option ℚ
deriving DecidableEq, Repr

def addInput (g : Graph) (i : AddInput) : Graph :=
  add_observation g i.from_service i.to_service i.latency_ms i.ts
    i.cpu_percent i.memory_percent

/-- Run a sequence of `add_observation` calls on a fresh graph
(default `max_edges = 5000`). -/
def buildGraph (L : List AddInput) : Graph := L.foldl addInput (init_graph 5000)

/-- The edge-ring dict an input contributes. -/
def payload (i : AddInput) : EObs := ⟨i.ts, i.latency_ms, i.cpu_percent, i.memory_percent⟩

/-- The global-index triple an input contributes. -/
def idxEntry (i : AddInput) : IndexEntry := (i.ts, i.from_service, i.to_service)

/-- The inputs landing on the directed edge `(u, v)`, in submission order. -/
def edgeInputs (L : List AddInput) (u v : String) : List AddInput :=
  L.filter fun i => i.from_service = u ∧ i.to_service = v

/-- The observation the query resolves for an index timestamp `ts` on the
edge `(u, svc)`: the first ring entry within the 0.001 epsilon. -/
def payAt (L : List AddInput) (svc : String) (ts : ℚ) (u : String) : EObs :=
  ((((edgeInputs L u svc).map payload).find? fun o => |o.timestamp - ts| < 1 / 1000).getD
    ⟨ts, 0, none, none⟩)

lemma aupdate_lookup {α β : Type _} [DecidableEq α] (k : α) (f : β → β) :
    ∀ l : List (α × β), alookup k (aupdate k f l) = (alookup k l).map f
  | [] => rfl
  | (k2, v) :: t => by
    by_cases hk : k2 = k
    · simp [aupdate, alookup, hk]
    · simp [aupdate, alookup, hk, aupdate_lookup k f t]

lemma aupdate_lookup_ne {α β : Type _} [DecidableEq α] {k k3 : α} (f : β → β)
    (hne : k3 ≠ k) :
    ∀ l : List (α × β), alookup k3 (aupdate k f l) = alookup k3 l
  | [] => rfl
  | (k2, v) :: t => by
    by_cases hk : k2 = k
    · subst hk
      have hne2 : ¬ k2 = k3 := fun hc => hne hc.symm
      simp only [aupdate, if_pos rfl, alookup, if_neg hne2]
    · simp only [aupdate, if_neg hk, alookup]
      by_cases h23 : k2 = k3
      · rw [if_pos h23, if_pos h23]
      · rw [if_neg h23, if_neg h23]
        exact aupdate_lookup_ne f hne t

lemma alookup_append {α β : Type _} [DecidableEq α] (k : α) :
    ∀ l l2 : List (α × β), alookup k (l ++ l2) =
      match alookup k l with
      | some v => some v
      | none => alookup k l2
  | [], l2 => rfl
  | (k2, v) :: t, l2 => by
    by_cases hk : k2 = k
    · simp [alookup, hk]
    · simp only [List.cons_append, alookup, if_neg hk]
      exact alookup_append k t l2

lemma pushRing_eq_append {α : Type _} (cap : Nat) (l : List α) (a : α)
    (h : l.length < cap) : pushRing cap l a = l ++ [a] := by
  have hz : (l ++ [a]).length - cap = 0 := by
    simp only [List.length_append, List.length_singleton]
    omega
  simp only [pushRing]
  rw [hz, List.drop_zero]

lemma add_observation_base (g : Graph) (f t : String) (lat ts : ℚ)
    (c m : Option ℚ) :
    (add_observation g f t lat ts c m).max_edges = g.max_edges
    ∧ (add_observation g f t lat ts c m).observations
      = pushRing g.max_edges g.observations (ts, f, t) := by
  simp only [add_observation]
  by_cases h : (alookup (f, t) g.edges).isSome = true <;> cases c <;> simp [h]

lemma add_observation_lookup (g : Graph) (f t u v : String) (lat ts : ℚ)
    (c m : Option ℚ) :
    alookup (u, v) (add_observation g f t lat ts c m).edges =
      if (u, v) = (f, t) then
        some (pushRing 100 (((alookup (f, t) g.edges)).getD [])
          ⟨ts, lat, c, m⟩)
      else alookup (u, v) g.edges := by
  have hedges : (add_observation g f t lat ts c m).edges =
      aupdate (f, t) (fun ring => pushRing 100 ring ⟨ts, lat, c, m⟩)
        (if (alookup (f, t) g.edges).isSome then g.edges
         else g.edges ++ [((f, t), [])]) := by
    simp only [add_observation]
    by_cases h : (alookup (f, t) g.edges).isSome = true <;> cases c <;> simp [h]
  rw [hedges]
  by_cases hk : (u, v) = (f, t)
  · rw [if_pos hk, hk]
    rw [aupdate_lookup]
    by_cases hs : (alookup (f, t) g.edges).isSome = true
    · rw [if_pos hs]
      obtain ⟨ring, hl⟩ := Option.isSome_iff_exists.mp hs
      rw [hl]
      rfl
    · rw [if_neg hs]
      have hl : alookup (f, t) g.edges = none := Option.not_isSome_iff_eq_none.mp hs
      rw [alookup_append, hl]
      simp [alookup]
  · rw [if_neg hk]
    rw [aupdate_lookup_ne _ hk]
    by_cases hs : (alookup (f, t) g.edges).isSome = true
    · rw [if_pos hs]
    · rw [if_neg hs]
      rw [alookup_append]
      have hne2 : ¬ (f, t) = (u, v) := fun hc => hk hc.symm
      cases hl : alookup (u, v) g.edges with
      | some ring => rfl
      | none => simp [alookup, hne2]

lemma buildGraph_append (L : List AddInput) (i : AddInput) :
    buildGraph (L ++ [i]) = addInput (buildGraph L) i := by
  unfold buildGraph
  rw [List.foldl_append, List.foldl_cons, List.foldl_nil]

lemma buildGraph_max_edges (L : List AddInput) : (buildGraph L).max_edges = 5000 := by
  induction L using List.reverseRecOn with
  | nil => rfl
  | append_singleton t i ih =>
    rw [buildGraph_append]
    exact (add_observation_base (buildGraph t) _ _ _ _ _ _).1.trans ih

lemma buildGraph_observations (L : List AddInput) (hlen : L.length ≤ 5000) :
    (buildGraph L).observations = L.map idxEntry := by
  induction L using List.reverseRecOn with
  | nil => rfl
  | append_singleton t i ih =>
    have hlt : t.length ≤ 5000 := by
      simp only [List.length_append, List.length_singleton] at hlen
      omega
    rw [buildGraph_append]
    have hb := add_observation_base (buildGraph t) i.from_service i.to_service
      i.latency_ms i.ts i.cpu_percent i.memory_percent
    show (add_observation (buildGraph t) _ _ _ _ _ _).observations = _
    rw [hb.2, buildGraph_max_edges, ih hlt, pushRing_eq_append]
    · rw [List.map_append]
      rfl
    · simp only [List.length_map]
      simp only [List.length_append, List.length_singleton] at hlen
      omega

lemma edgeInputs_append (L : List AddInput) (i : AddInput) (u v : String) :
    edgeInputs (L ++ [i]) u v =
      edgeInputs L u v ++
        (if i.from_service = u ∧ i.to_service = v then [i] else []) := by
  unfold edgeInputs
  rw [List.filter_append]
  congr 1
  by_cases h : i.from_service = u ∧ i.to_service = v
  · simp [h]
  · simp [h]

lemma edgeInputs_sublen (L : List AddInput) (i : AddInput) (u v : String) :
    (edgeInputs L u v).length ≤ (edgeInputs (L ++ [i]) u v).length := by
  rw [edgeInputs_append]
  simp only [List.length_append]
  omega

lemma buildGraph_edges (L : List AddInput) (u v : String)
    (hcap : (edgeInputs L u v).length ≤ 100) :
    alookup (u, v) (buildGraph L).edges =
      if (edgeInputs L u v).isEmpty then none
      else some ((edgeInputs L u v).map payload) := by
  induction L using List.reverseRecOn with
  | nil => rfl
  | append_singleton t i ih =>
    have hcap2 : (edgeInputs t u v).length ≤ 100 :=
      le_trans (edgeInputs_sublen t i u v) hcap
    rw [buildGraph_append]
    show alookup (u, v) (add_observation (buildGraph t) i.from_service i.to_service
      i.latency_ms i.ts i.cpu_percent i.memory_percent).edges = _
    rw [add_observation_lookup]
    by_cases hk : (u, v) = (i.from_service, i.to_service)
    · rw [if_pos hk]
      have hki : i.from_service = u ∧ i.to_service = v := by
        obtain ⟨h1, h2⟩ := Prod.mk.injEq _ _ _ _ ▸ hk
        exact ⟨h1.symm, h2.symm⟩
      have hei : edgeInputs (t ++ [i]) u v = edgeInputs t u v ++ [i] := by
        rw [edgeInputs_append, if_pos hki]
      have hget : ((alookup (i.from_service, i.to_service)
          (buildGraph t).edges)).getD [] = (edgeInputs t u v).map payload := by
        rw [← hk, ih hcap2]
        by_cases hemp : (edgeInputs t u v).isEmpty = true
        · rw [if_pos hemp]
          rw [List.isEmpty_iff.mp hemp]
          rfl
        · rw [if_neg hemp]
          rfl
      rw [hget]
      have hlen2 : ((edgeInputs t u v).map payload).length < 100 := by
        rw [hei] at hcap
        simp only [List.length_map]
        simp only [List.length_append, List.length_singleton] at hcap
        omega
      rw [pushRing_eq_append _ _ _ hlen2, hei]
      have : payload i = ⟨i.ts, i.latency_ms, i.cpu_percent, i.memory_percent⟩ := rfl
      rw [List.map_append]
      simp [this, List.isEmpty_iff]
    · rw [if_neg hk]
      have hki : ¬ (i.from_service = u ∧ i.to_service = v) := by
        intro hc
        exact hk (by rw [hc.1, hc.2])
      have hei : edgeInputs (t ++ [i]) u v = edgeInputs t u v := by
        rw [edgeInputs_append, if_neg hki, List.append_nil]
      rw [hei, ih hcap2]

lemma sorted_getD_mono {l : List ℚ} (hs : l.Pairwise (· ≤ ·)) {i j : Nat}
    (hij : i ≤ j) (hj : j < l.length) : l.getD i 0 ≤ l.getD j 0 := by
  rcases Nat.eq_or_lt_of_le hij with rfl | hlt
  · exact le_refl _
  · have hi : i < l.length := lt_trans hlt hj
    rw [List.getD_eq_getElem l 0 hi, List.getD_eq_getElem l 0 hj]
    exact List.pairwise_iff_getElem.mp hs i j hi hj hlt

/-- Binary-search loop invariant: on a sorted list, every index left of the
returned position holds a value below `x` and every index from the
position on holds a value at least `x`. -/
lemma bisectGo_spec (x : ℚ) :
    ∀ (fuel : Nat) (l : List ℚ) (lo hi : Nat),
    hi - lo ≤ fuel → hi ≤ l.length → l.Pairwise (· ≤ ·) →
    (∀ j, j < lo → j < l.length → l.getD j 0 < x) →
    (∀ j, hi ≤ j → j < l.length → x ≤ l.getD j 0) →
    (∀ j, j < bisectGo fuel l x lo hi → j < l.length → l.getD j 0 < x)
    ∧ (∀ j, bisectGo fuel l x lo hi ≤ j → j < l.length → x ≤ l.getD j 0) := by
  intro fuel
  induction fuel with
  | zero =>
    intro l lo hi hfuel hhi hsort hlo hhip
    have hle : hi ≤ lo := by omega
    constructor
    · intro j hj hjl
      exact hlo j hj hjl
    · intro j hj hjl
      exact hhip j (le_trans hle hj) hjl
  | succ fuel ih =>
    intro l lo hi hfuel hhi hsort hlo hhip
    by_cases hlt : lo < hi
    · have hmlo : lo ≤ (lo + hi) / 2 := by omega
      have hmhi : (lo + hi) / 2 < hi := by omega
      by_cases hcmp : l.getD ((lo + hi) / 2) 0 < x
      · have hres : bisectGo (fuel + 1) l x lo hi
            = bisectGo fuel l x ((lo + hi) / 2 + 1) hi := by
          simp only [bisectGo, if_pos hlt, if_pos hcmp]
        rw [hres]
        apply ih l ((lo + hi) / 2 + 1) hi (by omega) hhi hsort
        · intro j hj hjl
          exact lt_of_le_of_lt (sorted_getD_mono hsort (by omega) (by omega)) hcmp
        · exact hhip
      · have hres : bisectGo (fuel + 1) l x lo hi
            = bisectGo fuel l x lo ((lo + hi) / 2) := by
          simp only [bisectGo, if_pos hlt, if_neg hcmp]
        rw [hres]
        apply ih l lo ((lo + hi) / 2) (by omega) (by omega) hsort hlo
        intro j hj hjl
        exact le_trans (not_lt.mp hcmp) (sorted_getD_mono hsort hj hjl)
    · have hres : bisectGo (fuel + 1) l x lo hi = lo := by
        simp only [bisectGo, if_neg hlt]
      rw [hres]
      have hle : hi ≤ lo := by omega
      exact ⟨fun j hj hjl => hlo j hj hjl,
        fun j hj hjl => hhip j (le_trans hle hj) hjl⟩

/-- A drop at an index splitting the list into a prefix failing `p` and a
suffix satisfying `p` equals the filter by `p`. -/
lemma drop_eq_filter_of_split {α : Type _} (p : α → Bool) (d : α) :
    ∀ (l : List α) (k : Nat),
    (∀ j, j < k → j < l.length → p (l.getD j d) = false) →
    (∀ j, k ≤ j → j < l.length → p (l.getD j d) = true) →
    l.drop k = l.filter p
  | l, 0, _, h2 => by
    rw [List.drop_zero]
    symm
    rw [List.filter_eq_self]
    intro a ha
    obtain ⟨n, hn, rfl⟩ := List.mem_iff_getElem.mp ha
    have hp := h2 n (Nat.zero_le n) hn
    rwa [List.getD_eq_getElem l d hn] at hp
  | [], k + 1, _, _ => by simp
  | a :: t, k + 1, h1, h2 => by
    have ha : p a = false := h1 0 (Nat.succ_pos k) (by simp)
    rw [List.drop_succ_cons, List.filter_cons_of_neg (by simp [ha])]
    refine drop_eq_filter_of_split p d t k (fun j hj hjl => ?_) (fun j hj hjl => ?_)
    · have := h1 (j + 1) (by omega) (by simpa using hjl)
      simpa using this
    · have := h2 (j + 1) (by omega) (by simpa using hjl)
      simpa using this

lemma getD_map {α β : Type _} (f : α → β) (d : α) :
    ∀ (l : List α) (j : Nat), (l.map f).getD j (f d) = f (l.getD j d)
  | [], j => by simp
  | a :: t, 0 => rfl
  | a :: t, j + 1 => getD_map f d t j

/-- Under the pairwise 0.001 separation of an edge ring, the epsilon scan
for the timestamp of a ring member finds exactly that member. -/
lemma find_eps_unique :
    ∀ (es : List AddInput) (i : AddInput), i ∈ es →
    ((es.map AddInput.ts).Pairwise fun a b => 1 / 1000 ≤ |a - b|) →
    ((es.map payload).find? fun o => |o.timestamp - i.ts| < 1 / 1000)
      = some (payload i)
  | [], i, hmem, _ => absurd hmem (List.not_mem_nil i)
  | a :: t, i, hmem, hsep => by
    rw [List.map_cons] at hsep
    have hsep2 := List.pairwise_cons.mp hsep
    rcases List.mem_cons.mp hmem with rfl | hm2
    · rw [List.map_cons, List.find?_cons_of_pos]
      simp only [payload, sub_self, abs_zero]
      norm_num
    · have hge : 1 / 1000 ≤ |a.ts - i.ts| :=
        hsep2.1 i.ts (List.mem_map.mpr ⟨i, hm2, rfl⟩)
      rw [List.map_cons, List.find?_cons_of_neg]
      · exact find_eps_unique t i hm2 hsep2.2
      · simp only [payload, decide_eq_true_eq, not_lt]
        exact hge

/-- Characterisation of the upstream-dict fold: looking up `u` in the
result extends the accumulator entry for `u` by the resolved payloads of
the processed entries from `u` into `svc`, in order; `u` enters the dict
at its first qualifying entry. -/
lemma groupFold_lookup (g : Graph) (svc : String) (pay : ℚ → String → EObs) :
    ∀ (entries : List IndexEntry) (acc : List (String × List EObs)),
    (∀ ts u2, (ts, u2, svc) ∈ entries →
      (match alookup (u2, svc) g.edges with
       | some ring => resolveObs ring ts
       | none => none) = some (pay ts u2)) →
    ∀ u, alookup u (entries.foldl (groupStep g svc) acc) =
      match alookup u acc with
      | some l => some (l ++ ((entries.filter fun e =>
          e.2.1 = u ∧ e.2.2 = svc).map fun e => pay e.1 u))
      | none =>
        if (entries.filter fun e => e.2.1 = u ∧ e.2.2 = svc).isEmpty then none
        else some ((entries.filter fun e =>
          e.2.1 = u ∧ e.2.2 = svc).map fun e => pay e.1 u)
  | [], acc, hres, u => by
    simp only [List.foldl_nil, List.filter_nil, List.map_nil, List.isEmpty_nil]
    cases alookup u acc <;> simp
  | e :: rest, acc, hres, u => by
    obtain ⟨ts, a, b⟩ := e
    rw [List.foldl_cons]
    by_cases hb : b = svc
    · subst hb
      have hcomp := hres ts a (List.mem_cons_self _ _)
      cases hedge : alookup (a, b) g.edges with
      | none =>
        rw [hedge] at hcomp
        exact absurd hcomp (by simp)
      | some ring =>
        have hcomp2 : resolveObs ring ts = some (pay ts a) := by
          rw [hedge] at hcomp
          exact hcomp
        have hstep : groupStep g b acc (ts, a, b) =
            aupdate a (fun lst => lst ++ [pay ts a])
              (if (alookup a acc).isSome then acc else acc ++ [(a, [])]) := by
          simp [groupStep, hedge, hcomp2]
        rw [hstep]
        have hrec := groupFold_lookup g b pay rest
          (aupdate a (fun lst => lst ++ [pay ts a])
            (if (alookup a acc).isSome then acc else acc ++ [(a, [])]))
          (fun ts2 u2 hmem => hres ts2 u2 (List.mem_cons_of_mem _ hmem)) u
        rw [hrec]
        by_cases hu : a = u
        · subst hu
          have hfe : (((ts, a, b) :: rest).filter fun e =>
              e.2.1 = a ∧ e.2.2 = b)
              = (ts, a, b) :: (rest.filter fun e => e.2.1 = a ∧ e.2.2 = b) :=
            List.filter_cons_of_pos (by simp)
          rw [aupdate_lookup, hfe]
          by_cases hacc : (alookup a acc).isSome = true
          · obtain ⟨l, hl⟩ := Option.isSome_iff_exists.mp hacc
            rw [if_pos hacc, hl]
            simp
          · have hl : alookup a acc = none := Option.not_isSome_iff_eq_none.mp hacc
            rw [if_neg hacc, alookup_append, hl]
            simp [alookup]
        · have hne : ¬ a = u := hu
          have hfe : (((ts, a, b) :: rest).filter fun e =>
              e.2.1 = u ∧ e.2.2 = b)
              = rest.filter fun e => e.2.1 = u ∧ e.2.2 = b :=
            List.filter_cons_of_neg (by simp [hne])
          rw [aupdate_lookup_ne _ (fun hc => hne hc.symm), hfe]
          by_cases hacc : (alookup a acc).isSome = true
          · rw [if_pos hacc]
          · rw [if_neg hacc, alookup_append]
            cases hl : alookup u acc with
            | some l => rfl
            | none => simp [alookup, hne]
    · have hstep : groupStep g svc acc (ts, a, b) = acc := by
        simp [groupStep, hb]
      rw [hstep]
      have hfe : (((ts, a, b) :: rest).filter fun e => e.2.1 = u ∧ e.2.2 = svc)
          = rest.filter fun e => e.2.1 = u ∧ e.2.2 = svc :=
        List.filter_cons_of_neg (by simp [hb])
      rw [hfe]
      exact groupFold_lookup g svc pay rest acc
        (fun ts2 u2 hmem => hres ts2 u2 (List.mem_cons_of_mem _ hmem)) u

/-- The index entries surviving the window filter and targeting `svc` from
`u` are exactly the index entries of the inputs on the edge `(u, svc)`
with timestamp at least the cutoff. -/
lemma filtered_entries (L : List AddInput) (svc u : String) (c : ℚ) :
    (((L.map idxEntry).filter fun e => c ≤ e.1).filter fun e =>
        e.2.1 = u ∧ e.2.2 = svc)
      = (L.filter fun i => i.from_service = u ∧ i.to_service = svc ∧ c ≤ i.ts).map
          idxEntry := by
  induction L with
  | nil => rfl
  | cons i t ih =>
    rw [List.map_cons]
    by_cases h1 : c ≤ i.ts
    · rw [List.filter_cons_of_pos (by simp [idxEntry, h1])]
      by_cases h2 : i.from_service = u ∧ i.to_service = svc
      · rw [List.filter_cons_of_pos (by simp [idxEntry, h2.1, h2.2])]
        rw [List.filter_cons_of_pos (by simp [h2.1, h2.2, h1])]
        rw [List.map_cons, ih]
      · rw [List.filter_cons_of_neg (by simp only [idxEntry, decide_eq_true_eq]; exact h2)]
        rw [List.filter_cons_of_neg (by simp only [decide_eq_true_eq]; tauto)]
        exact ih
    · rw [List.filter_cons_of_neg (by simp [idxEntry, h1])]
      rw [List.filter_cons_of_neg (by simp only [decide_eq_true_eq]; tauto)]
      exact ih

/-- Claim C1 amended: for add_observation calls in non-decreasing
timestamp order, within the index capacity (5000) and edge-ring capacity
(100), with per-edge timestamps separated by at least the 0.001 matching
epsilon, `get_causal_neighbors(svc, w, now)` groups by upstream source
exactly the observations with target `svc` and timestamp at least
`now - w`; there is no upper bound at `now`, so later timestamps are
returned as well. -/
theorem C1_amended_neighbors (L : List AddInput) (svc : String) (w now : ℚ)
    (hsort : (L.map AddInput.ts).Pairwise (· ≤ ·))
    (hlen : L.length ≤ 5000)
    (hcap : ∀ a b2 : String, (edgeInputs L a b2).length ≤ 100)
    (hsep : ∀ a b2 : String, ((edgeInputs L a b2).map AddInput.ts).Pairwise
      fun x y => 1 / 1000 ≤ |x - y|) :
    ∀ u, alookup u (get_causal_neighbors (buildGraph L) svc w now) =
      if (L.filter fun i => i.from_service = u ∧ i.to_service = svc
          ∧ now - w ≤ i.ts).isEmpty then none
      else some ((L.filter fun i => i.from_service = u ∧ i.to_service = svc
          ∧ now - w ≤ i.ts).map payload) := by
  intro u
  have hobs : (buildGraph L).observations = L.map idxEntry :=
    buildGraph_observations L hlen
  by_cases hnil : L = []
  · subst hnil
    simp [get_causal_neighbors, buildGraph, init_graph, alookup]
  · have hmm : (L.map idxEntry).map (fun e => e.1) = L.map AddInput.ts := by
      rw [List.map_map]
      rfl
    have hspec := bisectGo_spec (now - w) ((L.map idxEntry).map (fun e => e.1)).length
      ((L.map idxEntry).map (fun e => e.1)) 0
      ((L.map idxEntry).map (fun e => e.1)).length
      (by omega) (le_refl _) (by rw [hmm]; exact hsort)
      (fun j hj hjl => absurd hj (Nat.not_lt_zero j))
      (fun j hj hjl => absurd hjl (by omega))
    have hdrop : (L.map idxEntry).drop
        (bisect_left ((L.map idxEntry).map fun e => e.1) (now - w))
        = (L.map idxEntry).filter fun e => now - w ≤ e.1 := by
      refine drop_eq_filter_of_split _ ((0 : ℚ), "", "") _ _
        (fun j hj hjl => ?_) (fun j hj hjl => ?_)
      · have hg : ((L.map idxEntry).map (fun e : IndexEntry => e.1)).getD j (0 : ℚ)
            = ((L.map idxEntry).getD j ((0 : ℚ), "", "")).1 :=
          getD_map (fun e : IndexEntry => e.1) ((0 : ℚ), "", "") (L.map idxEntry) j
        have hj2 := hspec.1 j hj (by simpa using hjl)
        rw [hg] at hj2
        exact decide_eq_false (not_le.mpr hj2)
      · have hg : ((L.map idxEntry).map (fun e : IndexEntry => e.1)).getD j (0 : ℚ)
            = ((L.map idxEntry).getD j ((0 : ℚ), "", "")).1 :=
          getD_map (fun e : IndexEntry => e.1) ((0 : ℚ), "", "") (L.map idxEntry) j
        have hj2 := hspec.2 j hj (by simpa using hjl)
        rw [hg] at hj2
        exact decide_eq_true hj2
    have hresolve : ∀ ts u2,
        (ts, u2, svc) ∈ ((L.map idxEntry).filter fun e => now - w ≤ e.1) →
        (match alookup (u2, svc) (buildGraph L).edges with
         | some ring => resolveObs ring ts
         | none => none) = some (payAt L svc ts u2) := by
      intro ts u2 hmem
      obtain ⟨hmem2, htime⟩ := List.mem_filter.mp hmem
      obtain ⟨i, hiL, hidx⟩ := List.mem_map.mp hmem2
      simp only [idxEntry, Prod.mk.injEq] at hidx
      obtain ⟨hts, hfu, htv⟩ := hidx
      have hie : i ∈ edgeInputs L u2 svc := by
        unfold edgeInputs
        exact List.mem_filter.mpr ⟨hiL, by simp [hfu, htv]⟩
      have hnonempty : ¬ (edgeInputs L u2 svc).isEmpty = true := by
        intro hc
        rw [List.isEmpty_iff.mp hc] at hie
        cases hie
      rw [buildGraph_edges L u2 svc (hcap u2 svc), if_neg hnonempty]
      show resolveObs ((edgeInputs L u2 svc).map payload) ts = some (payAt L svc ts u2)
      unfold resolveObs payAt
      rw [← hts]
      rw [find_eps_unique (edgeInputs L u2 svc) i hie (hsep u2 svc)]
      rfl
    have hne2 : (L.map idxEntry).isEmpty = false := by
      cases L with
      | nil => exact absurd rfl hnil
      | cons a t => rfl
    simp only [get_causal_neighbors]
    rw [hobs, hne2]
    rw [if_neg Bool.false_ne_true]
    rw [hdrop]
    rw [groupFold_lookup (buildGraph L) svc (fun ts u2 => payAt L svc ts u2)
      ((L.map idxEntry).filter fun e => now - w ≤ e.1) [] hresolve u]
    show (if (((L.map idxEntry).filter fun e => now - w ≤ e.1).filter fun e =>
        e.2.1 = u ∧ e.2.2 = svc).isEmpty then none
      else some ((((L.map idxEntry).filter fun e => now - w ≤ e.1).filter fun e =>
        e.2.1 = u ∧ e.2.2 = svc).map fun e => payAt L svc e.1 u)) = _
    rw [filtered_entries L svc u (now - w)]
    rw [List.map_map]
    have hpay : ∀ i ∈ (L.filter fun i => i.from_service = u ∧ i.to_service = svc
        ∧ now - w ≤ i.ts),
        ((fun e => payAt L svc e.1 u) ∘ idxEntry) i = payload i := by
      intro i hiQ
      obtain ⟨hiL, hprops⟩ := List.mem_filter.mp hiQ
      simp only [decide_eq_true_eq] at hprops
      have hie : i ∈ edgeInputs L u svc := by
        unfold edgeInputs
        exact List.mem_filter.mpr ⟨hiL, by simp [hprops.1, hprops.2.1]⟩
      show payAt L svc (idxEntry i).1 u = payload i
      unfold payAt
      have hts : (idxEntry i).1 = i.ts := rfl
      rw [hts]
      rw [find_eps_unique (edgeInputs L u svc) i hie (hsep u svc)]
      rfl
    rw [List.map_congr_left hpay]
    simp

lemma pairwise_of_length_le_one {α : Type _} {R : α → α → Prop} {l : List α}
    (h : l.length ≤ 1) : l.Pairwise R := by
  cases l with
  | nil => exact List.Pairwise.nil
  | cons a t =>
    cases t with
    | nil => simp
    | cons b t2 => simp at h

def L0 : List AddInput := [⟨"a", "b", 5, 10, none, none⟩]

theorem C1_amended_witness :
    alookup "a" (get_causal_neighbors (buildGraph L0) "b" 20 15)
      = some [⟨10, 5, none, none⟩] := by
  have h := C1_amended_neighbors L0 "b" 20 15
    (by simp [L0])
    (by simp [L0])
    (fun a b2 => le_trans (List.length_filter_le _ _) (by simp [L0]))
    (fun a b2 => pairwise_of_length_le_one
      (by rw [List.length_map]
          exact le_trans (List.length_filter_le _ _) (by simp [L0])))
    "a"
  rw [h]
  decide

end AITIA
